import Mathlib

/-!
Verification development for the jetty build tool.

The definitions below are shallow embeddings of the Go sources:
`validate.go` (command validator), `parse.go` (plan parser),
`build` / `processBuild` / `executeCMD` / `WorkerNode.Start` (build runner and
worker pool, latest revision), `directives.go` (directive executor).
Side-effectful collaborators (the spawned shell, the container driver, the
filesystem) are abstracted as oracle parameters; everything the control flow
of the embedded functions decides on is modelled exactly.

Strings are modelled as `List Char` (`Str`); `String` wrappers are provided
where convenient.
-/

namespace Jetty

/-- Character strings, modelled as lists of characters. -/
abbrev Str := List Char

/-- Whitespace characters recognised by Go's `unicode.IsSpace` in the Latin-1
range: `\t \n \v \f \r` space, NEL (U+0085) and NBSP (U+00A0).  (The directives
and commands of this program are ASCII, so the higher Unicode space code points
never arise.) -/
def isSpaceChar (c : Char) : Bool :=
  c = ' ' || c = '\t' || c = '\n' || c = '\x0b' || c = '\x0c' || c = '\r' ||
  c = '\x85' || c = '\xa0'

/-- Go `strings.TrimSpace`: drop whitespace from both ends. -/
def trimL (s : Str) : Str :=
  ((s.dropWhile isSpaceChar).reverse.dropWhile isSpaceChar).reverse

/-- Does `p` occur at the start of `s`? -/
def startsWithL (s p : Str) : Bool :=
  match s, p with
  | _, [] => true
  | [], _ :: _ => false
  | c :: s', d :: p' => c = d && startsWithL s' p'

/-- Does `p` occur at the end of `s`? -/
def endsWithL (s p : Str) : Bool :=
  startsWithL s.reverse p.reverse

/-- Does `p` occur as a contiguous substring of `s`?  (Go `strings.Contains` /
a regex made of literal characters.) -/
def containsSub : Str → Str → Bool
  | [], p => startsWithL [] p
  | s@(_ :: t), p => startsWithL s p || containsSub t p

/-- Does `s` contain the character `c`? -/
def containsChar (s : Str) (c : Char) : Bool :=
  s.any (· = c)

/-- Number of occurrences of character `c` in `s` (Go `strings.Count`). -/
def countChar (s : Str) (c : Char) : Nat :=
  (s.filter (· = c)).length

/-- Word characters of Go's regexp `\b` boundary: `[0-9A-Za-z_]`. -/
def isWordChar (c : Char) : Bool :=
  c = '_' || ('0' ≤ c && c ≤ '9') || ('a' ≤ c && c ≤ 'z') || ('A' ≤ c && c ≤ 'Z')

/-- Helper for `containsWholeWord`: does word `w` occur in `s` preceded by
`prev` (the character just before `s`, `none` at the start of the text) such
that both sides of the occurrence are word boundaries? -/
def hasWholeWordAux (w : Str) : Option Char → Str → Bool
  | prev, s =>
    (startsWithL s w &&
      (match prev with | none => true | some c => !isWordChar c) &&
      (match s.drop w.length with | [] => true | c :: _ => !isWordChar c)) ||
    (match s with
     | [] => false
     | c :: t => hasWholeWordAux w (some c) t)

/-- Semantics of the Go regex `\bw\b` for a word `w` made of word characters:
`w` occurs in `s` delimited by word boundaries on both sides. -/
def containsWholeWord (s w : Str) : Bool :=
  hasWholeWordAux w none s

/-- Semantics of the Go regex `\$\{.*\}`: an occurrence of the two characters
`$` `\x7b` followed, with no intervening newline (`.` does not match `\n`),
by a `\x7d`. -/
def matchDollarBrace : Str → Bool
  | [] => false
  | c1 :: s =>
      (match c1, s with
       | '$', '{' :: rest => (rest.takeWhile (fun c => c ≠ '\n')).any (· = '}')
       | _, _ => false) ||
      matchDollarBrace s

/-- Semantics of the Go regex `\(\(.*\)\)`: an occurrence of `((` followed,
with no intervening newline, by `))`. -/
def matchParenParen : Str → Bool
  | [] => false
  | c1 :: s =>
      (match c1, s with
       | '(', '(' :: rest => containsSub (rest.takeWhile (fun c => c ≠ '\n')) [')', ')']
       | _, _ => false) ||
      matchParenParen s

/-- The character class `[:=?+.-]` of the parameter-expansion-operator regex. -/
def classPEO (c : Char) : Bool :=
  c = ':' || c = '=' || c = '?' || c = '+' || c = '.' || c = '-'

/-- Semantics of the Go regex `:[p]?[:=?+.-]`: a `:` followed by an optional
`p` and then one character of the class. -/
def matchParamExp : Str → Bool
  | [] => false
  | c1 :: s =>
      (match c1, s with
       | ':', c2 :: rest =>
          classPEO c2 || (c2 = 'p' && (match rest with | d :: _ => classPEO d | [] => false))
       | _, _ => false) ||
      matchParamExp s

/-- Does `s` contain any of the given substrings?  (Semantics of a Go regex
that is an alternation of literal words, which matches as a substring search —
this is what makes the `\.` alternative of the keyword pattern match a literal
dot anywhere in the command.) -/
def anySubOf (subs : List Str) (s : Str) : Bool :=
  subs.any (containsSub s)

/-- The alternatives of the disallowed-keywords pattern
`export|source|\.|sudo|eval|exec|alias|function` of `validate.go`. -/
def keywordAlts : List Str :=
  ["export", "source", ".", "sudo", "eval", "exec", "alias", "function"].map String.data

/-- The alternatives of the control-structures pattern
`if|then|else|fi|for|while|do|done|case|esac` of `validate.go`. -/
def controlAlts : List Str :=
  ["if", "then", "else", "fi", "for", "while", "do", "done", "case", "esac"].map String.data

/-- The `\b…\b` whole-word command tokens of the deny table of `validate.go`,
with their rejection reasons, in source order. -/
def deniedWords : List (String × String) :=
  [("time", "'time' command prefix"), ("nohup", "'nohup' command prefix"),
   ("xargs", "'xargs' command"), ("env", "'env' command"),
   ("nice", "'nice' command prefix"), ("trap", "'trap' command"),
   ("command", "'command' built-in"), ("set", "'set' built-in"),
   ("unset", "'unset' built-in"), ("wait", "'wait' built-in"),
   ("kill", "'kill' command"), ("cron", "cron-related commands"),
   ("at", "'at' command"), ("chmod", "'chmod' command"),
   ("chown", "'chown' command"), ("chgrp", "'chgrp' command"),
   ("mkdir", "'mkdir' command"), ("rm", "'rm' command"),
   ("mv", "'mv' command"), ("cp", "'cp' command"),
   ("ln", "'ln' command"), ("touch", "'touch' command"),
   ("dd", "'dd' command"), ("find", "'find' command"),
   ("grep", "'grep' command"), ("sed", "'sed' command"),
   ("awk", "'awk' command"), ("perl", "'perl' command"),
   ("python", "'python' command"), ("ruby", "'ruby' command"),
   ("curl", "'curl' command"), ("wget", "'wget' command"),
   ("nc", "'nc' (netcat) command"), ("netstat", "'netstat' command"),
   ("ss", "'ss' command"), ("iptables", "'iptables' command"),
   ("ufw", "'ufw' command"), ("systemctl", "'systemctl' command"),
   ("service", "'service' command"), ("journalctl", "'journalctl' command"),
   ("login", "'login' command"), ("su", "'su' command"),
   ("passwd", "'passwd' command"), ("useradd", "'useradd' command"),
   ("userdel", "'userdel' command"), ("modprobe", "'modprobe' command"),
   ("insmod", "'insmod' command"), ("rmmod", "'rmmod' command"),
   ("dmesg", "'dmesg' command"), ("base64", "'base64' command")]

/-- The deny table `disallowedPatterns` of `validate.go`: each Go regex is
compiled by hand into a decidable matcher, paired with its rejection reason.
(The Go code stores these in a map and iterates in a nondeterministic order;
whether a command is rejected at all is order-independent, and the claims
below only concern acceptance versus rejection.) -/
def disallowedPatterns : List ((Str → Bool) × String) :=
  [(fun s => startsWithL s ['|'] || endsWithL s ['|'],
      "command begins or ends with a pipe '|'"),
   (fun s => containsSub s ['|', '|'], "OR operator '||'"),
   (fun s => containsSub s ['&', '&'], "AND operator '&&'"),
   (fun s => containsChar s '`', "backticks '`'"),
   (fun s => containsChar s '#', "comments '#'"),
   (fun s => containsChar s ';', "semicolons ';'"),
   (fun s => containsChar s '>', "output redirection '>' or '>>'"),
   (fun s => containsChar s '<', "input redirection '<' or '<<'"),
   (fun s => containsChar s '&', "background execution operator '&'"),
   (fun s => containsSub s ['$', '('] || containsChar s ')',
      "command substitution '$(...)'"),
   (fun s => containsChar s '{' || containsChar s '}',
      "brace expansion '\x7b\x7d'"),
   (fun s => containsSub s ['[', '['] || containsSub s [']', ']'],
      "conditional expression '[[...]]'"),
   (anySubOf keywordAlts, "disallowed keywords"),
   (anySubOf controlAlts, "control structures"),
   (fun s => containsChar s '~', "tilde '~' for home directory expansion"),
   (fun s => containsChar s '\\', "backslash '\\'"),
   (matchDollarBrace, "variable expansion '$\x7b...\x7d'"),
   (matchParenParen, "arithmetic expansion '(())'"),
   (matchParamExp, "parameter expansion operators")] ++
  deniedWords.map (fun w => (fun s => containsWholeWord s w.1.data, w.2))

/-- The command validator `validateLinuxCommand` of `validate.go`.  Returns
`none` when the command is accepted and `some reason` when it is rejected:
trim, reject the empty command, reject on the first matching deny pattern,
then reject unbalanced single or double quotes. -/
def validateLinuxCommand (cmd : Str) : Option String :=
  let c := trimL cmd
  if c = [] then some "empty command"
  else
    match disallowedPatterns.find? (fun p => p.1 c) with
    | some p => some ("command contains " ++ p.2 ++ ", which is not allowed")
    | none =>
      if countChar c '\'' % 2 ≠ 0 then some "unmatched single quotes in command"
      else if countChar c '"' % 2 ≠ 0 then some "unmatched double quotes in command"
      else none

/-- A character that is not dropped by `dropWhile` stays in the list. -/
theorem mem_dropWhile_of_mem {c : Char} {p : Char → Bool} :
    ∀ {s : Str}, c ∈ s → p c = false → c ∈ s.dropWhile p
  | a :: t, h, hc => by
    by_cases ha : p a
    · rw [List.dropWhile_cons_of_pos ha]
      rcases List.mem_cons.mp h with rfl | ht
      · exact absurd ha (by simp [hc])
      · exact mem_dropWhile_of_mem ht hc
    · rw [List.dropWhile_cons_of_neg ha]
      exact h

/-- Trimming never loses a non-whitespace character. -/
theorem mem_trimL_of_mem {c : Char} {s : Str} (h : c ∈ s)
    (hc : isSpaceChar c = false) : c ∈ trimL s := by
  unfold trimL
  rw [List.mem_reverse]
  refine mem_dropWhile_of_mem ?_ hc
  rw [List.mem_reverse]
  exact mem_dropWhile_of_mem h hc

/-- A list containing `c` contains `[c]` as a substring. -/
theorem containsSub_singleton_of_mem {c : Char} :
    ∀ {s : Str}, c ∈ s → containsSub s [c] = true
  | a :: t, h => by
    rcases List.mem_cons.mp h with rfl | ht
    · simp [containsSub, startsWithL]
    · simp [containsSub, containsSub_singleton_of_mem ht]

/-- The disallowed-keywords entry is one of the deny patterns. -/
theorem keywordPattern_mem :
    ((anySubOf keywordAlts, "disallowed keywords") : (Str → Bool) × String) ∈
      disallowedPatterns := by
  unfold disallowedPatterns
  apply List.mem_append_left
  repeat first | exact List.Mem.head _ | apply List.Mem.tail

/-- Every whole-word deny pattern is one of the deny patterns. -/
theorem wordPattern_mem {w : String × String} (hw : w ∈ deniedWords) :
    ((fun s => containsWholeWord s w.1.data, w.2) : (Str → Bool) × String) ∈
      disallowedPatterns := by
  unfold disallowedPatterns
  apply List.mem_append_right
  exact List.mem_map_of_mem _ hw

/-- Claim C8: every command string accepted by the validator (result `none`)
is non-empty after trimming, has an even number of single quotes and an even
number of double quotes, matches no pattern of the deny list, and in
particular contains no denied command token as a whole word. -/
theorem validator_accepted_command_properties (cmd : Str)
    (h : validateLinuxCommand cmd = none) :
    trimL cmd ≠ [] ∧
    countChar (trimL cmd) '\'' % 2 = 0 ∧
    countChar (trimL cmd) '"' % 2 = 0 ∧
    (∀ p ∈ disallowedPatterns, p.1 (trimL cmd) = false) ∧
    (∀ w ∈ deniedWords, containsWholeWord (trimL cmd) w.1.data = false) := by
  unfold validateLinuxCommand at h
  simp only at h
  split at h
  · exact absurd h (by simp)
  · rename_i hne
    split at h
    · exact absurd h (by simp)
    · rename_i hfind
      split at h
      · exact absurd h (by simp)
      · rename_i hsq
        split at h
        · exact absurd h (by simp)
        · rename_i hdq
          have hpats : ∀ p ∈ disallowedPatterns, p.1 (trimL cmd) = false := by
            intro p hp
            have := List.find?_eq_none.mp hfind p hp
            simpa using this
          refine ⟨hne, by omega, by omega, hpats, ?_⟩
          intro w hw
          exact hpats _ (wordPattern_mem hw)

/-- Witness for C8 at the concrete accepted command `echo hello`. -/
theorem validator_accepted_command_properties_witness :
    validateLinuxCommand ("echo hello".data) = none ∧
    (∀ w ∈ deniedWords, containsWholeWord (trimL ("echo hello".data)) w.1.data = false) :=
  ⟨by decide, (validator_accepted_command_properties _ (by decide)).2.2.2.2⟩

/-- Claim C10: the validator rejects every command string containing a `.`
character anywhere, because the `\.` alternative of the keyword deny pattern
matches a literal dot as a substring rather than as a standalone word. -/
theorem validator_rejects_dot (cmd : Str) (h : '.' ∈ cmd) :
    (validateLinuxCommand cmd).isSome = true := by
  have hdot : '.' ∈ trimL cmd := mem_trimL_of_mem h (by decide)
  have hne : trimL cmd ≠ [] := by
    intro he
    rw [he] at hdot
    exact absurd hdot (List.not_mem_nil _)
  have hmatch : anySubOf keywordAlts (trimL cmd) = true := by
    unfold anySubOf
    rw [List.any_eq_true]
    exact ⟨['.'], by decide, containsSub_singleton_of_mem hdot⟩
  unfold validateLinuxCommand
  simp only
  split
  · simp
  · split
    · simp
    · rename_i hfind
      exact absurd (by simpa using List.find?_eq_none.mp hfind _ keywordPattern_mem)
        (by simp [hmatch])

/-- Witness for C10 at the concrete command `echo a.txt`. -/
theorem validator_rejects_dot_witness :
    ('.' ∈ ("echo a.txt".data : Str)) ∧
    (validateLinuxCommand ("echo a.txt".data)).isSome = true :=
  ⟨by decide, validator_rejects_dot _ (by decide)⟩

/-- Go `strings.TrimSpace` on `String`. -/
def trimS (s : String) : String := ⟨trimL s.data⟩

/-- Go `strings.HasPrefix` on `String`. -/
def startsWithS (s p : String) : Bool := startsWithL s.data p.data

/-- Go `strings.HasSuffix` on `String`. -/
def endsWithS (s p : String) : Bool := endsWithL s.data p.data

/-- Go `strings.TrimSuffix`: remove one trailing copy of `p` if present. -/
def trimSuffixS (s p : String) : String :=
  if endsWithS s p then ⟨s.data.take (s.data.length - p.data.length)⟩ else s

/-- Go `strings.SplitN(line, " ", 2)` restricted to the two-part outcome:
split at the first space, `none` when the string contains no space (in which
case Go returns a single part and the parser reports an invalid
instruction). -/
def splitFirstSpaceL : Str → Option (Str × Str)
  | [] => none
  | c :: rest =>
    if c = ' ' then some ([], rest)
    else (splitFirstSpaceL rest).map (fun q => (c :: q.1, q.2))

/-- A parsed plan record, mirroring the Go `Instruction` struct. -/
structure Instruction where
  Directive : String
  Args : String
deriving DecidableEq

/-- The directive table of `parse.go`'s `parseFile`: directive name mapped to
its list of permitted modifier symbols.  (The Go code builds this map and then
only ever queries key membership — the modifier lists are never consulted.) -/
def validDirectives : List (String × List String) :=
  [("ARG", []), ("ENV", []), ("RUN", ["*"]), ("CMD", []), ("DIR", []),
   ("CPY", ["*"]), ("WDR", []), ("SUB", ["*"]), ("FRM", []), ("JET", []),
   ("FMT", ["^", "$", "&"]), ("BOX", []), ("USE", [])]

/-- Key lookup in the directive table. -/
def lookupDirective (d : String) : Option (List String) :=
  (validDirectives.find? (fun p => p.1 = d)).map (fun p => p.2)

/-- Drop the first character of a string (Go `s[1:]` on ASCII). -/
def dropFirstS (s : String) : String := ⟨s.data.drop 1⟩

/-- The scanner loop of `parse.go`'s `parseFile`, over the file's lines.
The second argument is the pending multi-line buffer.  Skip blank and `#`
lines; a raw line ending in `\` accumulates into the buffer; otherwise the
buffer (if any) is prepended and the line is split into head and arguments.
Only a leading `*` is ever split off the head; the resulting base directive
must be a key of the table, and the permitted-modifier lists are never
checked. -/
def parseLinesAux : List String → String → Except String (List Instruction)
  | [], buf =>
    if buf ≠ "" then .error "unterminated multi-line command" else .ok []
  | line :: rest, buf =>
    let trimmed := trimS line
    if trimmed = "" ∨ startsWithS trimmed "#" then parseLinesAux rest buf
    else if endsWithS line "\\" then
      parseLinesAux rest (buf ++ trimSuffixS line "\\" ++ "\n")
    else
      let line1 := if buf ≠ "" then buf ++ line else line
      match splitFirstSpaceL line1.data with
      | none => .error ("invalid instruction: " ++ line1)
      | some (h, r) =>
        let head : String := ⟨h⟩
        let pd := if startsWithS head "*" then ("*", dropFirstS head) else ("", head)
        match lookupDirective pd.2 with
        | none => .error ("invalid directive: " ++ pd.1 ++ pd.2)
        | some _ =>
          match parseLinesAux rest "" with
          | .error e => .error e
          | .ok is => .ok ({ Directive := pd.1 ++ pd.2, Args := trimS ⟨r⟩ } :: is)

/-- The parser `parseFile` of `parse.go`, abstracted over the file contents
given as a list of lines. -/
def parseFileLines (lines : List String) : Except String (List Instruction) :=
  parseLinesAux lines ""

/-- Claim C4 (refuted; the code diverges from the modifier table): the parser
accepts a `*` modifier on `CMD` even though the table permits no modifier for
`CMD`, and it rejects `^FMT` even though the table lists `^` as permitted for
`FMT` — the permitted-modifier lists of the table are never consulted, and
only the `*` prefix is ever split off. -/
theorem parse_modifier_table_not_enforced :
    parseFileLines ["*CMD echo hi"] =
      .ok [{ Directive := "*CMD", Args := "echo hi" }] ∧
    parseFileLines ["^FMT %s a out.txt"] = .error "invalid directive: ^FMT" ∧
    lookupDirective "CMD" = some [] ∧
    lookupDirective "FMT" = some ["^", "$", "&"] :=
  ⟨rfl, rfl, rfl, rfl⟩

/-- Go `os.Expand`'s `isShellSpecialVar`: the single-character variable
names `* # $ @ ! ? -` and the digits. -/
def isShellSpecialVar (c : Char) : Bool :=
  c = '*' || c = '#' || c = '$' || c = '@' || c = '!' || c = '?' || c = '-' ||
  ('0' ≤ c && c ≤ '9')

/-- Go `os.Expand`'s `isAlphaNum`: underscore, digits and ASCII letters. -/
def isAlphaNumGo (c : Char) : Bool :=
  c = '_' || ('0' ≤ c && c ≤ '9') || ('a' ≤ c && c ≤ 'z') || ('A' ≤ c && c ≤ 'Z')

/-- Index of the first `\x7d` in a list, if any (the brace scan of Go's
`getShellName`). -/
def braceScanGo : Str → Option Nat
  | [] => none
  | c :: rest => if c = '}' then some 0 else (braceScanGo rest).map (· + 1)

/-- Result of Go `getShellName`'s closing-brace scan over the text following
the opening `\x7b`: unterminated eats just `$\x7b` (width 1 past the `$`),
`$\x7b\x7d` is bad syntax eaten with width 2, otherwise the name runs to the
brace. -/
def braceResult (rest : Str) : Str × Nat :=
  match braceScanGo rest with
  | none => ([], 1)
  | some 0 => ([], 2)
  | some k => (rest.take k, k + 2)

/-- Go `os.Expand`'s `getShellName`, applied to the text following a `$`:
returns the reference name and the number of characters consumed after the
`$`. -/
def getShellName (s : Str) : Str × Nat :=
  match s with
  | [] => ([], 0)
  | c :: rest =>
    if c = '{' then
      match rest with
      | c1 :: c2 :: _ =>
        if isShellSpecialVar c1 && c2 = '}' then ([c1], 3) else braceResult rest
      | _ => braceResult rest
    else if isShellSpecialVar c then ([c], 1)
    else (s.takeWhile isAlphaNumGo, (s.takeWhile isAlphaNumGo).length)

/-- Go `os.Expand` over a mapping function: scan for `$`; on a reference,
substitute `mapping name` and skip the consumed width; invalid syntax after a
`$` is eaten; a `$` not followed by a name (or at the end of the string) is
kept literally. -/
def osExpand (mapping : Str → Str) : Str → Str
  | [] => []
  | c :: rest =>
    if c = '$' then
      match rest with
      | [] => ['$']
      | r1 :: rtail =>
        match getShellName (r1 :: rtail) with
        | (name, w) =>
          if name = [] ∧ 0 < w then osExpand mapping ((r1 :: rtail).drop w)
          else if name = [] then '$' :: osExpand mapping (r1 :: rtail)
          else mapping name ++ osExpand mapping ((r1 :: rtail).drop w)
    else c :: osExpand mapping rest
termination_by s => s.length
decreasing_by
  all_goals simp [List.length_drop]
  all_goals omega

/-- Lookup in the build's `args` map (Go map indexing with ok-flag). -/
def lookupArg (args : List (String × String)) (k : Str) : Option Str :=
  (args.find? (fun p => p.1.data = k)).map (fun p => p.2.data)

/-- The mapping closure of `expandArgs` in `parse.go`: a bound name expands
to its value; an unbound name expands to the literal `$` followed by the bare
name. -/
def expandMapping (args : List (String × String)) (k : Str) : Str :=
  match lookupArg args k with
  | some v => v
  | none => '$' :: k

/-- The function `expandArgs` of `parse.go`: `os.Expand` with the
bound-or-literal mapping. -/
def expandArgs (s : String) (args : List (String × String)) : String :=
  ⟨osExpand (expandMapping args) s.data⟩

/-- A decomposition of a source string into literal text and `$NAME` /
`$\x7bNAME\x7d` references, used to state what expansion does to each
reference. -/
inductive Chunk
  | lit (s : Str)
  | ref (name : Str)
  | bref (name : Str)
deriving DecidableEq

/-- The source text of a chunk: a bare reference renders as `$name`, a braced
reference as `$\x7bname\x7d`. -/
def renderChunk : Chunk → Str
  | .lit s => s
  | .ref n => '$' :: n
  | .bref n => '$' :: '{' :: (n ++ ['}'])

/-- The source text of a chunk list. -/
def renderAll (cs : List Chunk) : Str := (cs.map renderChunk).flatten

/-- What expansion is claimed to produce for one chunk: literals unchanged,
references replaced through the mapping. -/
def expandChunk (m : Str → Str) : Chunk → Str
  | .lit s => s
  | .ref n => m n
  | .bref n => m n

/-- A conventional shell identifier: non-empty, made of `[_0-9a-zA-Z]`, and
not starting with a digit (nor any special single-character variable). -/
def goodName (n : Str) : Bool :=
  !n.isEmpty && n.all isAlphaNumGo &&
    (match n with | c :: _ => !isShellSpecialVar c | [] => false)

/-- The text after a bare reference must not start with a name character,
otherwise the reference would extend into it. -/
def nextStartsNonAN : List Chunk → Bool
  | [] => true
  | .lit s :: _ => match s with | [] => false | c :: _ => !isAlphaNumGo c
  | _ :: _ => true

/-- Well-formed chunk lists: literals are non-empty and `$`-free, names are
conventional identifiers, and a bare reference is followed by a
non-name-character. -/
def chunksWF : List Chunk → Bool
  | [] => true
  | .lit s :: rest => !containsChar s '$' && !s.isEmpty && chunksWF rest
  | .ref n :: rest => goodName n && nextStartsNonAN rest && chunksWF rest
  | .bref n :: rest => goodName n && chunksWF rest

/-- The text either is empty or starts with a non-name character. -/
def headStopsAN (s : Str) : Prop :=
  ∀ c t, s = c :: t → isAlphaNumGo c = false

/-- Expansion of the empty string. -/
theorem osExpand_nil (m : Str → Str) : osExpand m [] = [] := by
  rw [osExpand.eq_def]

/-- Unfolding `osExpand` over a non-dollar character. -/
theorem osExpand_cons_ne (m : Str → Str) (c : Char) (t : Str) (h : ¬ c = '$') :
    osExpand m (c :: t) = c :: osExpand m t := by
  conv_lhs => rw [osExpand.eq_def]
  simp [h]

/-- Unfolding `osExpand` at a dollar sign followed by more text. -/
theorem osExpand_dollar_step (m : Str → Str) (r1 : Char) (rtail : Str) :
    osExpand m ('$' :: r1 :: rtail) =
      (match getShellName (r1 :: rtail) with
       | (name, w) =>
         if name = [] ∧ 0 < w then osExpand m ((r1 :: rtail).drop w)
         else if name = [] then '$' :: osExpand m (r1 :: rtail)
         else m name ++ osExpand m ((r1 :: rtail).drop w)) := by
  conv_lhs => rw [osExpand.eq_def]
  simp

/-- Expansion passes dollar-free text through unchanged and continues. -/
theorem osExpand_append_noDollar (m : Str → Str) {pre : Str} (h : '$' ∉ pre)
    (t : Str) : osExpand m (pre ++ t) = pre ++ osExpand m t := by
  induction pre with
  | nil => simp
  | cons c p ih =>
    have hc : ¬ c = '$' := fun e => h (e ▸ List.mem_cons_self c p)
    rw [List.cons_append, osExpand_cons_ne m c _ hc,
      ih (fun hm => h (List.mem_cons_of_mem _ hm)), List.cons_append]

/-- Expansion is the identity on dollar-free text. -/
theorem osExpand_noDollar (m : Str → Str) {s : Str} (h : '$' ∉ s) :
    osExpand m s = s := by
  have := osExpand_append_noDollar m h []
  simpa [osExpand_nil] using this

/-- A `takeWhile` over an all-satisfying list continues past it. -/
theorem takeWhile_append_all {p : Char → Bool} {l1 : Str}
    (h : ∀ c ∈ l1, p c = true) (l2 : Str) :
    (l1 ++ l2).takeWhile p = l1 ++ l2.takeWhile p := by
  induction l1 with
  | nil => simp
  | cons c t ih =>
    rw [List.cons_append, List.takeWhile_cons, if_pos (h c (List.mem_cons_self c t)),
      ih (fun d hd => h d (List.mem_cons_of_mem _ hd)), List.cons_append]

/-- A `takeWhile` stops immediately at a failing head. -/
theorem takeWhile_nil_of_headStop {p : Char → Bool} {l2 : Str}
    (h : ∀ c t, l2 = c :: t → p c = false) : l2.takeWhile p = [] := by
  cases l2 with
  | nil => rfl
  | cons c t => rw [List.takeWhile_cons, if_neg (by simp [h c t rfl])]

/-- The brace scan finds the first closing brace after brace-free text. -/
theorem braceScanGo_append {n : Str} (h : ∀ c ∈ n, ¬ c = '}') (post : Str) :
    braceScanGo (n ++ '}' :: post) = some n.length := by
  induction n with
  | nil => simp [braceScanGo]
  | cons c t ih =>
    rw [List.cons_append, braceScanGo, if_neg (h c (List.mem_cons_self c t)),
      ih (fun d hd => h d (List.mem_cons_of_mem _ hd))]
    rfl

/-- Unpack `goodName`. -/
theorem goodName_spec {n : Str} (h : goodName n = true) :
    ∃ c0 n', n = c0 :: n' ∧ isShellSpecialVar c0 = false ∧
      ∀ c ∈ n, isAlphaNumGo c = true := by
  cases n with
  | nil => simp [goodName] at h
  | cons c0 n' =>
    simp only [goodName, Bool.and_eq_true, List.all_eq_true] at h
    exact ⟨c0, n', rfl, by simpa using h.2, fun c hc => h.1.2 c hc⟩

/-- Name characters are not the opening brace. -/
theorem ne_brace_of_alphaNum {c : Char} (h : isAlphaNumGo c = true) :
    ¬ c = '{' := by
  intro e
  rw [e] at h
  exact absurd h (by decide)

/-- Name characters are not the closing brace. -/
theorem ne_closeBrace_of_alphaNum {c : Char} (h : isAlphaNumGo c = true) :
    ¬ c = '}' := by
  intro e
  rw [e] at h
  exact absurd h (by decide)

/-- Key step: expanding a bare `$name` reference at the head of the text
substitutes the mapping and continues after the name. -/
theorem osExpand_ref_step (m : Str → Str) {n : Str} (hg : goodName n = true)
    {post : Str} (hpost : headStopsAN post) :
    osExpand m ('$' :: (n ++ post)) = m n ++ osExpand m post := by
  obtain ⟨c0, n', rfl, hs, hAN⟩ := goodName_spec hg
  have hname : getShellName (c0 :: (n' ++ post)) = (c0 :: n', n'.length + 1) := by
    rw [getShellName.eq_def]
    simp only
    rw [if_neg (ne_brace_of_alphaNum (hAN c0 (List.mem_cons_self c0 n')))]
    rw [if_neg (by simp [hs])]
    have htw : (c0 :: (n' ++ post)).takeWhile isAlphaNumGo = c0 :: n' := by
      have h1 : ((c0 :: n') ++ post).takeWhile isAlphaNumGo = c0 :: n' := by
        rw [takeWhile_append_all hAN post, takeWhile_nil_of_headStop hpost,
          List.append_nil]
      simpa using h1
    rw [htw]
    simp
  have hstep := osExpand_dollar_step m c0 (n' ++ post)
  rw [hname] at hstep
  simp only [List.cons_append]
  rw [hstep]
  simp only
  rw [if_neg (by simp), if_neg (by simp)]
  have hdrop : (c0 :: (n' ++ post)).drop (n'.length + 1) = post := by
    have h1 := List.drop_left (c0 :: n') post
    simpa using h1
  rw [hdrop]

/-- When the special-variable shortcut does not apply, `getShellName` after
an opening brace is the brace scan. -/
theorem getShellName_brace {rest : Str}
    (h : ∀ c1 c2 t, rest = c1 :: c2 :: t →
      (isShellSpecialVar c1 && c2 = '}') = false) :
    getShellName ('{' :: rest) = braceResult rest := by
  cases rest with
  | nil => simp [getShellName]
  | cons c1 rest1 =>
    cases rest1 with
    | nil => simp [getShellName]
    | cons c2 t =>
      simp [getShellName, h c1 c2 t rfl]

/-- Key step: expanding a braced reference at the head of the text
substitutes the mapping and continues after the closing brace. -/
theorem osExpand_bref_step (m : Str → Str) {n : Str} (hg : goodName n = true)
    (post : Str) :
    osExpand m ('$' :: '{' :: (n ++ '}' :: post)) = m n ++ osExpand m post := by
  obtain ⟨c0, n', rfl, hs, hAN⟩ := goodName_spec hg
  have hbr : braceResult (c0 :: n' ++ '}' :: post) = (c0 :: n', n'.length + 3) := by
    have hk : braceScanGo (c0 :: n' ++ '}' :: post) = some (n'.length + 1) := by
      simpa using
        braceScanGo_append (fun c hc => ne_closeBrace_of_alphaNum (hAN c hc)) post
    rw [braceResult, hk]
    have htake : (c0 :: n' ++ '}' :: post).take (n'.length + 1) = c0 :: n' := by
      simpa using List.take_left (c0 :: n') ('}' :: post)
    simp [htake]
  have hname : getShellName ('{' :: (c0 :: n' ++ '}' :: post)) =
      (c0 :: n', n'.length + 3) := by
    rw [getShellName_brace, hbr]
    intro c1 c2 t he
    cases n' with
    | nil =>
      simp only [List.nil_append, List.cons_append, List.cons.injEq] at he
      obtain ⟨rfl, rfl, -⟩ := he
      simp [hs]
    | cons d dt =>
      simp only [List.cons_append, List.cons.injEq] at he
      obtain ⟨rfl, rfl, -⟩ := he
      simp [hs]
  have hstep := osExpand_dollar_step m '{' (c0 :: n' ++ '}' :: post)
  rw [hname] at hstep
  simp only [List.cons_append] at hstep ⊢
  rw [hstep]
  rw [if_neg (by simp), if_neg (by simp)]
  have hdrop : ('{' :: (c0 :: n' ++ '}' :: post)).drop (n'.length + 3) = post := by
    have hre : '{' :: (c0 :: n' ++ '}' :: post) =
        ('{' :: c0 :: n' ++ ['}']) ++ post := by simp
    have hlen : ('{' :: c0 :: n' ++ ['}']).length = n'.length + 3 := by simp
    rw [hre, ← hlen, List.drop_left]
  simp only [List.cons_append] at hdrop
  rw [hdrop]

/-- Rendering distributes over cons. -/
theorem renderAll_cons (c : Chunk) (cs : List Chunk) :
    renderAll (c :: cs) = renderChunk c ++ renderAll cs := by
  simp [renderAll]

/-- The rendering of a chunk list that may follow a bare reference starts
with a non-name character (or is empty). -/
theorem renderAll_headStops {cs : List Chunk} (hns : nextStartsNonAN cs = true) :
    headStopsAN (renderAll cs) := by
  intro c t hct
  cases cs with
  | nil => simp [renderAll] at hct
  | cons ch rest =>
    rw [renderAll_cons] at hct
    cases ch with
    | lit s =>
      cases s with
      | nil => simp [nextStartsNonAN] at hns
      | cons d dt =>
        simp only [renderChunk, List.cons_append, List.cons.injEq] at hct
        obtain ⟨rfl, -⟩ := hct
        simpa [nextStartsNonAN] using hns
    | ref n =>
      simp only [renderChunk, List.cons_append, List.cons.injEq] at hct
      obtain ⟨rfl, -⟩ := hct
      decide
    | bref n =>
      simp only [renderChunk, List.cons_append, List.cons.injEq] at hct
      obtain ⟨rfl, -⟩ := hct
      decide

/-- Expansion of the rendering of a well-formed chunk list expands exactly
the references, chunk by chunk. -/
theorem osExpand_chunks (m : Str → Str) :
    ∀ {cs : List Chunk}, chunksWF cs = true →
      osExpand m (renderAll cs) = (cs.map (expandChunk m)).flatten
  | [], _ => by simp [renderAll, osExpand_nil]
  | .lit s :: rest, h => by
    simp only [chunksWF, Bool.and_eq_true] at h
    obtain ⟨⟨hds, -⟩, hrest⟩ := h
    have hnd : '$' ∉ s := by
      simp only [containsChar, Bool.not_eq_true', List.any_eq_false,
        decide_eq_false_iff_not] at hds
      exact fun hm => hds '$' hm rfl
    rw [renderAll_cons]
    simp only [renderChunk]
    rw [osExpand_append_noDollar m hnd, osExpand_chunks m hrest]
    simp [expandChunk]
  | .ref n :: rest, h => by
    simp only [chunksWF, Bool.and_eq_true] at h
    obtain ⟨⟨hg, hns⟩, hrest⟩ := h
    rw [renderAll_cons]
    have hsh : renderChunk (.ref n) ++ renderAll rest = '$' :: (n ++ renderAll rest) := by
      simp [renderChunk]
    rw [hsh, osExpand_ref_step m hg (renderAll_headStops hns),
      osExpand_chunks m hrest]
    simp [expandChunk]
  | .bref n :: rest, h => by
    simp only [chunksWF, Bool.and_eq_true] at h
    obtain ⟨hg, hrest⟩ := h
    rw [renderAll_cons]
    have hsh : renderChunk (.bref n) ++ renderAll rest =
        '$' :: '{' :: (n ++ '}' :: renderAll rest) := by
      simp [renderChunk]
    rw [hsh, osExpand_bref_step m hg (renderAll rest), osExpand_chunks m hrest]
    simp [expandChunk]

/-- Claim C9: variable expansion substitutes `args[NAME]` for each bound
`$NAME` / `$\x7bNAME\x7d` reference, turns each reference to an unbound name
into the literal `$NAME` (the dollar preserved and the identifier bare), and
is the identity on strings containing no `$`.  The first conjunct states this
reference-by-reference over any well-formed decomposition of the input into
literals and references; the middle conjuncts pin down the mapping used for
bound and unbound names; the last is the no-dollar identity. -/
theorem expandArgs_reference_semantics (args : List (String × String))
    (cs : List Chunk) (h : chunksWF cs = true) :
    osExpand (expandMapping args) (renderAll cs) =
      (cs.map (expandChunk (expandMapping args))).flatten ∧
    (∀ n v, lookupArg args n = some v → expandMapping args n = v) ∧
    (∀ n, lookupArg args n = none → expandMapping args n = '$' :: n) ∧
    (∀ s : Str, '$' ∉ s → osExpand (expandMapping args) s = s) :=
  ⟨osExpand_chunks _ h,
   fun _ _ hv => by simp [expandMapping, hv],
   fun _ hn => by simp [expandMapping, hn],
   fun _ hs => osExpand_noDollar _ hs⟩

/-- Witness for C9: `echo $X$Y` with `X` bound to `1` and `Y` unbound expands
to `echo 1$Y` (the spec's scenario 6). -/
theorem expandArgs_reference_semantics_witness :
    chunksWF [Chunk.lit "echo ".data, Chunk.ref "X".data, Chunk.ref "Y".data] = true ∧
    osExpand (expandMapping [("X", "1")]) ("echo $X$Y".data) = "echo 1$Y".data := by
  refine ⟨by decide, ?_⟩
  have h := (expandArgs_reference_semantics [("X", "1")]
    [Chunk.lit "echo ".data, Chunk.ref "X".data, Chunk.ref "Y".data] (by decide)).1
  have e1 : renderAll [Chunk.lit "echo ".data, Chunk.ref "X".data, Chunk.ref "Y".data] =
      "echo $X$Y".data := by decide
  have e2 : ([Chunk.lit "echo ".data, Chunk.ref "X".data, Chunk.ref "Y".data].map
      (expandChunk (expandMapping [("X", "1")]))).flatten = "echo 1$Y".data := by decide
  rw [← e1, h]
  exact e2

/-- Build lifecycle statuses (`statusRunning`, `statusCompleted`,
`statusFailed`). -/
inductive StRec
  | running
  | completed
  | failed
deriving DecidableEq

/-- Observable events of one build, in emission order: result-sink log
strings, status-sink records, and the dispatch points of the run — a
sequential directive handed to the executor, a `*`-directive spawned
concurrently, and the deferred CMD being executed. -/
inductive BEvent
  | log (msg : String)
  | status (r : StRec)
  | execd (inst : Instruction)
  | dispatched (inst : Instruction)
  | ranCMD (inst : Instruction)
deriving DecidableEq

/-- Outcome of one directive execution: the threaded external state, the log
messages the handler emitted, and its error, if any.  The handlers
themselves are side-effectful (shell, filesystem, environment), so the build
runner is parameterised by an oracle of this type. -/
structure ExecOut (σ : Type) where
  st : σ
  logs : List String
  err : Option String

/-- State carried by the directive loop of `processBuild`: the external
state, the pending deferred CMD, and the collected concurrent errors. -/
structure LoopSt (σ : Type) where
  st : σ
  pending : Option Instruction
  concErrs : List String

/-- How the directive loop of `processBuild` ended: an abort (the enclosing
function emits the failure log and a `Failed` record and returns), or normal
completion with the final loop state. -/
inductive LoopRes (σ : Type)
  | abort (failMsg : String)
  | done (fin : LoopSt σ)

/-- The `"(%d/%d) Error: …"` progress-prefixed error messages of
`processBuild`. -/
def countMsg (k total : Nat) (m : String) : String :=
  "(" ++ toString k ++ "/" ++ toString total ++ ") Error: " ++ m

/-- Go `executeInstructionConcurrent`: strip one leading `*` before
dispatching. -/
def stripStar (i : Instruction) : Instruction :=
  if startsWithS i.Directive "*" then { i with Directive := dropFirstS i.Directive }
  else i

/-- The directive loop of `processBuild` (latest revision).  Arguments:
`cancel k` tells whether the context was observed cancelled at the `k`-th
check (check 0 is the one right after the `Running` record), `exec` is the
directive-executor oracle, `total` the plan length; then the remaining
instructions, the count of instructions already seen, and the loop state.
Each iteration checks cancellation; a `CMD` is deferred (failing if one is
already pending); a `*`-directive is dispatched concurrently, its error
collected without aborting; any other directive executes sequentially and
its error aborts the loop.  Concurrent execution is modelled by running the
dispatched task at its dispatch point (one legal schedule); only its logs
and collected error are observable to the claims below. -/
def procLoop {σ : Type} (cancel : Nat → Bool)
    (exec : Instruction → σ → ExecOut σ) (total : Nat) :
    List Instruction → Nat → σ → Option Instruction → List String →
      List BEvent × LoopRes σ
  | [], _, s, pending, errs => ([], .done ⟨s, pending, errs⟩)
  | inst :: rest, count, s, pending, errs =>
    if cancel (count + 1) then ([], .abort "Build cancelled")
    else if inst.Directive = "CMD" then
      match pending with
      | some _ =>
        ([], .abort (countMsg (count + 1) total "multiple CMD directives are not allowed"))
      | none => procLoop cancel exec total rest (count + 1) s (some inst) errs
    else if startsWithS inst.Directive "*" then
      let out := exec (stripStar inst) s
      let evs := BEvent.dispatched inst :: out.logs.map BEvent.log ++
        (match out.err with
         | some e => [BEvent.log (countMsg (count + 1) total ("executing instruction: " ++ e))]
         | none => [])
      let errs1 := errs ++ (match out.err with | some e => [e] | none => [])
      let next := procLoop cancel exec total rest (count + 1) out.st pending errs1
      (evs ++ next.1, next.2)
    else
      let out := exec inst s
      match out.err with
      | some e =>
        (BEvent.execd inst :: out.logs.map BEvent.log,
          .abort (countMsg (count + 1) total ("executing instruction: " ++ e)))
      | none =>
        let next := procLoop cancel exec total rest (count + 1) out.st pending errs
        (BEvent.execd inst :: out.logs.map BEvent.log ++ next.1, next.2)

/-- Go `executeCMD` (latest revision): run `sh -c` on the raw `inst.Args`
string — no variable expansion and no call to the validator — with the
build's `env` map appended to the process environment; emit `Done: output`
on success, return a `CMD execution failed` error otherwise.  `runShell` is
the shell oracle: it receives exactly the string handed to `sh -c` and the
env map, and returns the new external state, the combined output, and
whether the process succeeded. -/
def executeCMD {σ : Type} (runShell : String → List (String × String) → σ → σ × String × Bool)
    (inst : Instruction) (env : List (String × String)) (s : σ) : ExecOut σ :=
  let r := runShell inst.Args env s
  if r.2.2 then ⟨r.1, ["Done: " ++ r.2.1 ++ "\n"], none⟩
  else ⟨r.1, [], some ("CMD execution failed: " ++ r.2.1)⟩

/-- Go `processBuild` (latest revision), as the sequence of events it emits.
A nil context logs an error and emits nothing else; otherwise a `Running`
record is emitted first, then the guard checks (cancellation, empty file
name, parse failure) each emit a failure log plus a `Failed` record; then
the directive loop runs; a loop abort emits its failure log plus `Failed`;
otherwise collected concurrent errors emit a failure log plus `Failed`; and
finally the pending CMD (if any) is executed, yielding `Failed` on error and
`Completed` otherwise.  `parseRes` stands for `parseFile(job.FileName)` and
`cmdExec` for the deferred-CMD runner (instantiated with `executeCMD`). -/
def processBuild {σ : Type} (ctxIsNil : Bool) (cancel : Nat → Bool)
    (fileName : String) (parseRes : Except String (List Instruction))
    (exec : Instruction → σ → ExecOut σ)
    (cmdExec : Instruction → σ → ExecOut σ) (s0 : σ) : List BEvent :=
  if ctxIsNil then [.log "Error: job context is nil"]
  else
    .status .running ::
    (if cancel 0 then [.log "Build cancelled", .status .failed]
     else if fileName = "" then
       [.log "Error: please provide a file name", .status .failed]
     else
       match parseRes with
       | .error e => [.log ("Error parsing file: " ++ e), .status .failed]
       | .ok insts =>
         let total := insts.length
         match procLoop cancel exec total insts 0 s0 none [] with
         | (evs, .abort msg) => evs ++ [.log msg, .status .failed]
         | (evs, .done fin) =>
           if fin.concErrs ≠ [] then
             evs ++ [.log ("Errors occurred during concurrent execution: [" ++
               String.intercalate " " fin.concErrs ++ "]"), .status .failed]
           else
             match fin.pending with
             | some ci =>
               let out := cmdExec ci fin.st
               evs ++ BEvent.ranCMD ci :: out.logs.map BEvent.log ++
                 (match out.err with
                  | some e =>
                    [.log (countMsg total total ("executing CMD instruction: " ++ e)),
                     .status .failed]
                  | none => [.status .completed])
             | none => evs ++ [.status .completed])

/-- Go `isAlphanumeric` (byte helper of the directive executor): ASCII
letters and digits only. -/
def isAlphanumeric (c : Char) : Bool :=
  ('A' ≤ c && c ≤ 'Z') || ('a' ≤ c && c ≤ 'z') || ('0' ≤ c && c ≤ '9')

/-- Accumulator worker for `fieldsL`: the first argument is the current token
reversed. -/
def fieldsAux : Str → Str → List Str
  | acc, [] => if acc = [] then [] else [acc.reverse]
  | acc, c :: rest =>
    if isSpaceChar c then
      if acc = [] then fieldsAux [] rest else acc.reverse :: fieldsAux [] rest
    else fieldsAux (c :: acc) rest

/-- Go `strings.Fields`: split around runs of whitespace. -/
def fieldsL (s : Str) : List Str := fieldsAux [] s

/-- Go `strings.Fields` on `String`. -/
def fieldsS (s : String) : List String := (fieldsL s.data).map (fun l => ⟨l⟩)

/-- Result of one `directives.go` `executeInstruction` call: the log messages
emitted on success, or the returned error. -/
inductive DirResult
  | ok (logs : List String)
  | err (msg : String)
deriving DecidableEq

/-- The Go `BoxInfo` struct of `directives.go`. -/
structure BoxInfo where
  Repository : String
  Tag : String
deriving DecidableEq

/-- The `BOX` / `USE` dispatch of `executeInstruction` in `directives.go`.
`container` abstracts `execInContainer`, whose definition is absent from the
sources (per the spec's container-driver contract it runs the command in the
named container and surfaces failures as errors); `other` abstracts the
remaining side-effectful handlers; `now` abstracts `time.Now().UnixNano()`.
The decisive detail is modelled exactly as the source has it: `boxes` is a
local variable of the function (`var boxes map[string]BoxInfo` followed by
`if boxes == nil { boxes = make(...) }`), so every invocation starts from an
empty map, and the map a `BOX` call fills dies with that call. -/
def executeInstructionD (container : String → String → String → String → Option String)
    (other : Instruction → DirResult) (now : Nat) (inst0 : Instruction) : DirResult :=
  let inst :=
    match inst0.Directive.data with
    | c :: rest =>
      if rest ≠ [] ∧ isAlphanumeric c = false then
        { inst0 with Directive := ⟨rest⟩ }
      else inst0
    | [] => inst0
  let boxes : List (String × BoxInfo) := []
  match inst.Directive with
  | "BOX" =>
    match fieldsS inst.Args with
    | [boxName, repository, tag] =>
      let _ := (boxName, BoxInfo.mk repository tag) :: boxes
      .ok ["BOX: Created box " ++ boxName ++ " with image " ++ repository ++ ":" ++ tag]
    | _ => .err "BOX directive requires exactly three arguments: name, repository, and tag"
  | "USE" =>
    match fieldsS inst.Args with
    | boxName :: c1 :: crest =>
      let cmd := String.intercalate " " (c1 :: crest)
      match boxes.find? (fun p => p.1 = boxName) with
      | none => .err ("box not found: " ++ boxName)
      | some p =>
        let containerName := boxName ++ "-" ++ toString now
        match container cmd p.2.Repository p.2.Tag containerName with
        | some e => .err ("failed to execute in container: " ++ e)
        | none => .ok ["USE: Executed command in box " ++ boxName]
    | _ => .err "USE directive requires at least two arguments: box name and command"
  | _ => other inst

/-- Claim C1 (refuted — `boxes` never outlives one call): `BOX mybox alpine
latest` succeeds and logs the registration, yet a later `USE mybox echo hi`
of the same build fails with `box not found: mybox`, for every container
driver, every handler oracle and every clock value — the `boxes` map is a
local of `executeInstruction`, created empty on each invocation, so no `BOX`
registration is ever visible to a `USE`. -/
theorem box_registration_not_visible_to_use
    (container : String → String → String → String → Option String)
    (other : Instruction → DirResult) (now1 now2 : Nat) :
    executeInstructionD container other now1
        { Directive := "BOX", Args := "mybox alpine latest" } =
      .ok ["BOX: Created box mybox with image alpine:latest"] ∧
    executeInstructionD container other now2
        { Directive := "USE", Args := "mybox echo hi" } =
      .err "box not found: mybox" :=
  ⟨rfl, rfl⟩

/-- A queued unit of work, as far as the worker loop inspects it. -/
structure Job where
  BuildID : String
  FileName : String
deriving DecidableEq

/-- What a worker's `select` can receive: a job from its queue or the quit
signal. -/
inductive WorkerMsg
  | job (j : Job)
  | quit

/-- Actions a worker body could take: invoke the build runner on a job, or
exit its loop. -/
inductive WorkerAct
  | runBuild (j : Job)
  | exitLoop
deriving DecidableEq

/-- The goroutine body of `WorkerNode.Start` (latest revision), over the
stream of messages its `select` receives: a received job is bound and
immediately discarded (`_ = job` in the source) and the loop continues; the
quit signal exits the loop.  The returned list is every action the body
takes. -/
def workerRun : List WorkerMsg → List WorkerAct
  | [] => []
  | .job _ :: rest => workerRun rest
  | .quit :: _ => [WorkerAct.exitLoop]

/-- Claim C2 (refuted — jobs are discarded): under every schedule of its
channels, the worker loop of `WorkerNode.Start` never invokes the build
runner on any job it receives; the job is silently dropped. -/
theorem worker_never_runs_build (msgs : List WorkerMsg) (j : Job) :
    WorkerAct.runBuild j ∉ workerRun msgs := by
  induction msgs with
  | nil => simp [workerRun]
  | cons m rest ih =>
    cases m with
    | job j' => simpa [workerRun] using ih
    | quit => simp [workerRun]

/-- The directive loop over a concatenation: if the first part completes
without abort, the loop continues into the second part from the final state,
with the event streams concatenated. -/
theorem procLoop_append_done {σ : Type} {cancel : Nat → Bool}
    {exec : Instruction → σ → ExecOut σ} {total : Nat} :
    ∀ {l1 : List Instruction} {count : Nat} {s : σ} {pending : Option Instruction}
      {errs : List String} {evs : List BEvent} {fin : LoopSt σ},
      procLoop cancel exec total l1 count s pending errs = (evs, .done fin) →
      ∀ l2 : List Instruction,
        procLoop cancel exec total (l1 ++ l2) count s pending errs =
          (evs ++ (procLoop cancel exec total l2 (count + l1.length) fin.st
              fin.pending fin.concErrs).1,
           (procLoop cancel exec total l2 (count + l1.length) fin.st
              fin.pending fin.concErrs).2) := by
  intro l1
  induction l1 with
  | nil =>
    intro count s pending errs evs fin h l2
    rw [procLoop] at h
    injection h with h1 h2
    injection h2 with h3
    subst h1 h3
    simp
  | cons inst t ih =>
    intro count s pending errs evs fin h l2
    rw [List.cons_append]
    simp only [procLoop] at h ⊢
    by_cases hc : cancel (count + 1) = true
    · rw [if_pos hc] at h
      exact absurd h (by simp)
    · rw [if_neg hc] at h ⊢
      by_cases hd : inst.Directive = "CMD"
      · rw [if_pos hd] at h ⊢
        cases pending with
        | some c => exact absurd h (by simp)
        | none =>
          simp only at h ⊢
          rw [ih h l2]
          have harith : count + 1 + t.length = count + (t.length + 1) := by omega
          simp [harith]
      · rw [if_neg hd] at h ⊢
        by_cases hst : startsWithS inst.Directive "*" = true
        · rw [if_pos hst] at h ⊢
          rcases h3 : procLoop cancel exec total t (count + 1) (exec (stripStar inst) s).st
              pending (errs ++ (match (exec (stripStar inst) s).err with
                | some e => [e] | none => [])) with ⟨evs2, res2⟩
          rw [h3] at h
          simp only [Prod.mk.injEq] at h
          obtain ⟨rfl, hres2⟩ := h
          subst hres2
          rw [ih h3 l2]
          have harith : count + 1 + t.length = count + (t.length + 1) := by omega
          simp [harith]
        · rw [if_neg hst] at h ⊢
          rcases herr : (exec inst s).err with - | e
          · simp only [herr] at h ⊢
            rcases h3 : procLoop cancel exec total t (count + 1) (exec inst s).st
                pending errs with ⟨evs2, res2⟩
            rw [h3] at h
            simp only [Prod.mk.injEq] at h
            obtain ⟨rfl, hres2⟩ := h
            subst hres2
            rw [ih h3 l2]
            have harith : count + 1 + t.length = count + (t.length + 1) := by omega
            simp [harith]
          · simp only [herr] at h
            exact absurd h (by simp)

/-- Every event the directive loop emits is a log, a sequential dispatch of a
non-CMD directive, or a concurrent dispatch of a `*`-directive; in
particular the loop emits no status record and no CMD execution. -/
theorem procLoop_event_shape {σ : Type} {cancel : Nat → Bool}
    {exec : Instruction → σ → ExecOut σ} {total : Nat} :
    ∀ {l : List Instruction} {count : Nat} {s : σ} {pending : Option Instruction}
      {errs : List String} {ev : BEvent},
      ev ∈ (procLoop cancel exec total l count s pending errs).1 →
      (∃ m, ev = .log m) ∨
      (∃ i, ev = .execd i ∧ ¬ i.Directive = "CMD") ∨
      (∃ i, ev = .dispatched i ∧ startsWithS i.Directive "*" = true) := by
  intro l
  induction l with
  | nil =>
    intro count s pending errs ev hmem
    rw [procLoop] at hmem
    exact absurd hmem (by simp)
  | cons inst t ih =>
    intro count s pending errs ev hmem
    simp only [procLoop] at hmem
    by_cases hc : cancel (count + 1) = true
    · rw [if_pos hc] at hmem
      exact absurd hmem (by simp)
    · rw [if_neg hc] at hmem
      by_cases hd : inst.Directive = "CMD"
      · rw [if_pos hd] at hmem
        cases pending with
        | some c => exact absurd hmem (by simp)
        | none => exact ih hmem
      · rw [if_neg hd] at hmem
        by_cases hst : startsWithS inst.Directive "*" = true
        · rw [if_pos hst] at hmem
          simp only [List.mem_cons, List.mem_append, List.mem_map, or_assoc] at hmem
          rcases hmem with rfl | ⟨m, -, rfl⟩ | hrest | hnext
          · exact .inr (.inr ⟨inst, rfl, hst⟩)
          · exact .inl ⟨m, rfl⟩
          · rcases herr : (exec (stripStar inst) s).err with - | e
            · rw [herr] at hrest
              exact absurd hrest (by simp)
            · rw [herr] at hrest
              simp only [List.mem_singleton] at hrest
              exact .inl ⟨_, hrest⟩
          · exact ih hnext
        · rw [if_neg hst] at hmem
          rcases herr : (exec inst s).err with - | e
          · simp only [herr] at hmem
            simp only [List.mem_cons, List.mem_append, List.mem_map, or_assoc] at hmem
            rcases hmem with rfl | ⟨m, -, rfl⟩ | hnext
            · exact .inr (.inl ⟨inst, rfl, hd⟩)
            · exact .inl ⟨m, rfl⟩
            · exact ih hnext
          · simp only [herr] at hmem
            simp only [List.mem_cons, List.mem_map, or_assoc] at hmem
            rcases hmem with rfl | ⟨m, -, rfl⟩
            · exact .inr (.inl ⟨inst, rfl, hd⟩)
            · exact .inl ⟨m, rfl⟩

/-- The status-sink records among a build's events, in order. -/
def statusesOf (evs : List BEvent) : List StRec :=
  evs.filterMap (fun e => match e with | .status r => some r | _ => none)

/-- Status extraction distributes over concatenation. -/
theorem statusesOf_append (a b : List BEvent) :
    statusesOf (a ++ b) = statusesOf a ++ statusesOf b := by
  simp [statusesOf]

/-- Status extraction over the empty event list. -/
theorem statusesOf_nil : statusesOf [] = [] := rfl

/-- Status extraction keeps a status record. -/
theorem statusesOf_cons_status (r : StRec) (t : List BEvent) :
    statusesOf (.status r :: t) = r :: statusesOf t := by
  simp [statusesOf]

/-- Status extraction skips a log. -/
theorem statusesOf_cons_log (m : String) (t : List BEvent) :
    statusesOf (.log m :: t) = statusesOf t := by
  simp [statusesOf]

/-- Status extraction skips a CMD-execution event. -/
theorem statusesOf_cons_ranCMD (i : Instruction) (t : List BEvent) :
    statusesOf (.ranCMD i :: t) = statusesOf t := by
  simp [statusesOf]

/-- The directive loop emits no status record. -/
theorem statusesOf_procLoop {σ : Type} {cancel : Nat → Bool}
    {exec : Instruction → σ → ExecOut σ} {total : Nat} {l : List Instruction}
    {count : Nat} {s : σ} {pending : Option Instruction} {errs : List String} :
    statusesOf (procLoop cancel exec total l count s pending errs).1 = [] := by
  rw [statusesOf, List.filterMap_eq_nil]
  intro ev hev
  rcases procLoop_event_shape hev with ⟨m, rfl⟩ | ⟨i, rfl, -⟩ | ⟨i, rfl, -⟩ <;> rfl

/-- Plain log messages carry no status record. -/
theorem statusesOf_logs (logs : List String) :
    statusesOf (logs.map BEvent.log) = [] := by
  induction logs with
  | nil => rfl
  | cons m t ih => simpa [statusesOf] using ih

/-- Claim C7: for every build (the runner always passes a non-nil context),
the first record emitted on the status sink is `Running`, exactly one
`Running` record is emitted over the whole build, a terminal record
(`Completed` or `Failed`) follows it, and no `Running` is emitted after a
terminal record — indeed the status stream is exactly `[Running, t]` with
`t` terminal. -/
theorem build_status_protocol {σ : Type} (cancel : Nat → Bool) (fileName : String)
    (parseRes : Except String (List Instruction))
    (exec cmdExec : Instruction → σ → ExecOut σ) (s0 : σ) :
    ∃ t, (t = StRec.completed ∨ t = StRec.failed) ∧
      statusesOf (processBuild false cancel fileName parseRes exec cmdExec s0) =
        [StRec.running, t] ∧
      (statusesOf (processBuild false cancel fileName parseRes exec cmdExec s0)).head? =
        some StRec.running ∧
      (statusesOf (processBuild false cancel fileName parseRes exec cmdExec s0)).count
        StRec.running = 1 ∧
      (statusesOf (processBuild false cancel fileName parseRes exec cmdExec s0)).getLast? =
        some t := by
  suffices h : ∃ t, (t = StRec.completed ∨ t = StRec.failed) ∧
      statusesOf (processBuild false cancel fileName parseRes exec cmdExec s0) =
        [StRec.running, t] by
    obtain ⟨t, ht, he⟩ := h
    refine ⟨t, ht, he, by simp [he], ?_, by simp [he]⟩
    rcases ht with rfl | rfl <;> simp [he]
  unfold processBuild
  simp only [Bool.false_eq_true, if_false]
  by_cases hc : cancel 0 = true
  · exact ⟨.failed, .inr rfl, by simp [hc, statusesOf]⟩
  · rw [if_neg hc]
    by_cases hf : fileName = ""
    · exact ⟨.failed, .inr rfl, by simp [hf, statusesOf]⟩
    · rw [if_neg hf]
      rcases parseRes with e | insts
      · exact ⟨.failed, .inr rfl, by
          simp [statusesOf_cons_status, statusesOf_cons_log, statusesOf_nil]⟩
      · rcases hres : procLoop cancel exec insts.length insts 0 s0 none [] with ⟨evs, res⟩
        have hevs : statusesOf evs = [] := by
          have h0 := @statusesOf_procLoop σ cancel exec insts.length insts 0 s0 none []
          rw [hres] at h0
          exact h0
        cases res with
        | abort msg =>
          refine ⟨.failed, .inr rfl, ?_⟩
          simp only [hres]
          simp [statusesOf_append, hevs, statusesOf_cons_status, statusesOf_cons_log,
            statusesOf_nil]
        | done fin =>
          simp only [hres]
          by_cases hce : fin.concErrs ≠ []
          · refine ⟨.failed, .inr rfl, ?_⟩
            simp only [if_pos hce]
            simp [statusesOf_append, hevs, statusesOf_cons_status, statusesOf_cons_log,
              statusesOf_nil]
          · simp only [if_neg hce]
            match hpend : fin.pending with
            | some ci =>
              rcases herr : (cmdExec ci fin.st).err with - | e
              · refine ⟨.completed, .inl rfl, ?_⟩
                simp only [herr]
                simp [statusesOf_append, hevs, statusesOf_cons_status, statusesOf_cons_log,
                  statusesOf_cons_ranCMD, statusesOf_logs, statusesOf_nil]
              · refine ⟨.failed, .inr rfl, ?_⟩
                simp only [herr]
                simp [statusesOf_append, hevs, statusesOf_cons_status, statusesOf_cons_log,
                  statusesOf_cons_ranCMD, statusesOf_logs, statusesOf_nil]
            | none =>
              refine ⟨.completed, .inl rfl, ?_⟩
              simp [statusesOf_append, hevs, statusesOf_cons_status, statusesOf_nil]

/-- A directive whose name begins with `*` is not `CMD`. -/
theorem star_not_CMD {d : String} (h : startsWithS d "*" = true) :
    ¬ d = "CMD" := by
  intro e
  rw [e] at h
  exact absurd h (by decide)

/-- The directive loop never emits a CMD-execution event. -/
theorem procLoop_no_ranCMD {σ : Type} {cancel : Nat → Bool}
    {exec : Instruction → σ → ExecOut σ} {total : Nat} {l : List Instruction}
    {count : Nat} {s : σ} {pending : Option Instruction} {errs : List String}
    (i : Instruction) :
    BEvent.ranCMD i ∉ (procLoop cancel exec total l count s pending errs).1 := by
  intro hm
  rcases procLoop_event_shape hm with ⟨m, h⟩ | ⟨j, h, -⟩ | ⟨j, h, -⟩ <;>
    exact absurd h (by simp)

/-- Claim C5: when a sequential (non-`*`, non-CMD) directive's execution
reports an error, the build emits the progress-prefixed failure log
immediately followed by a terminal `Failed` status record, the event trace
ends right there — so no later directive of the plan is dispatched — and no
deferred CMD is ever executed. -/
theorem seq_error_fatal {σ : Type} (cancel : Nat → Bool)
    (exec cmdExec : Instruction → σ → ExecOut σ) (fileName : String) (s0 : σ)
    (pre post : List Instruction) (inst : Instruction)
    (evs : List BEvent) (fin : LoopSt σ) (e : String)
    (hc0 : cancel 0 = false) (hf : ¬ fileName = "")
    (hpre : procLoop cancel exec (pre ++ inst :: post).length pre 0 s0 none [] =
      (evs, .done fin))
    (hcan : cancel (pre.length + 1) = false)
    (hcmd : ¬ inst.Directive = "CMD")
    (hstar : ¬ startsWithS inst.Directive "*" = true)
    (herr : (exec inst fin.st).err = some e) :
    processBuild false cancel fileName (.ok (pre ++ inst :: post)) exec cmdExec s0 =
      .status .running :: evs ++ BEvent.execd inst ::
        (exec inst fin.st).logs.map .log ++
        [.log (countMsg (pre.length + 1) (pre ++ inst :: post).length
            ("executing instruction: " ++ e)),
         .status .failed] ∧
    ∀ i, BEvent.ranCMD i ∉
      processBuild false cancel fileName (.ok (pre ++ inst :: post)) exec cmdExec s0 := by
  have hstep : procLoop cancel exec (pre ++ inst :: post).length (inst :: post)
      (0 + pre.length) fin.st fin.pending fin.concErrs =
      (BEvent.execd inst :: (exec inst fin.st).logs.map .log,
       .abort (countMsg (pre.length + 1) (pre ++ inst :: post).length
         ("executing instruction: " ++ e))) := by
    simp only [procLoop, Nat.zero_add, hcan, hcmd, hstar, herr]
    simp
  have hloop : procLoop cancel exec (pre ++ inst :: post).length
      (pre ++ inst :: post) 0 s0 none [] =
      (evs ++ BEvent.execd inst :: (exec inst fin.st).logs.map .log,
       .abort (countMsg (pre.length + 1) (pre ++ inst :: post).length
         ("executing instruction: " ++ e))) := by
    rw [procLoop_append_done hpre (inst :: post), hstep]
  have hmain : processBuild false cancel fileName (.ok (pre ++ inst :: post))
      exec cmdExec s0 =
      .status .running :: evs ++ BEvent.execd inst ::
        (exec inst fin.st).logs.map .log ++
        [.log (countMsg (pre.length + 1) (pre ++ inst :: post).length
            ("executing instruction: " ++ e)),
         .status .failed] := by
    unfold processBuild
    rw [if_neg (by simp)]
    rw [if_neg (by simp [hc0]), if_neg hf]
    simp only [hloop]
    simp
  refine ⟨hmain, ?_⟩
  intro i
  rw [hmain]
  simp only [List.mem_cons, List.mem_append, List.mem_map, or_assoc]
  rintro (h | h | h | ⟨m, -, h⟩ | h)
  · exact absurd h (by simp)
  · have hm : BEvent.ranCMD i ∈
        (procLoop cancel exec (pre ++ inst :: post).length pre 0 s0 none []).1 := by
      rw [hpre]
      exact h
    exact procLoop_no_ranCMD i hm
  · exact absurd h (by simp)
  · exact absurd h (by simp)
  · rcases h with h | h
    · exact absurd h (by simp)
    · rcases h with h | h
      · exact absurd h (by simp)
      · exact absurd h (by simp)

/-- Witness for C5: a one-directive plan whose `RUN` fails; the trace is the
`Running` record, the dispatch of the failing directive, the failure log and
the terminal `Failed` record, and the following `ENV` directive of the plan
is never dispatched. -/
theorem seq_error_fatal_witness :
    processBuild false (fun _ => false) "Jettyfile"
        (.ok [{ Directive := "RUN", Args := "boom" },
              { Directive := "ENV", Args := "A=B" }])
        (fun _ (_ : Unit) => ⟨(), [], some "exit status 1"⟩)
        (fun _ _ => ⟨(), [], none⟩) () =
      [.status .running, .execd { Directive := "RUN", Args := "boom" },
       .log (countMsg 1 2 "executing instruction: exit status 1"),
       .status .failed] ∧
    ∀ i, BEvent.ranCMD i ∉
      processBuild false (fun _ => false) "Jettyfile"
        (.ok [{ Directive := "RUN", Args := "boom" },
              { Directive := "ENV", Args := "A=B" }])
        (fun _ (_ : Unit) => ⟨(), [], some "exit status 1"⟩)
        (fun _ _ => ⟨(), [], none⟩) () := by
  have h := seq_error_fatal (σ := Unit) (fun _ => false)
    (fun _ _ => ⟨(), [], some "exit status 1"⟩) (fun _ _ => ⟨(), [], none⟩)
    "Jettyfile" () [] [{ Directive := "ENV", Args := "A=B" }]
    { Directive := "RUN", Args := "boom" } [] ⟨(), none, []⟩ "exit status 1"
    rfl (by decide) rfl rfl (by decide) (by decide) rfl
  exact ⟨by simpa using h.1, by simpa using h.2⟩

/-- Claim C6: when execution reaches a second `CMD` record, the build fails
with the message `multiple CMD directives are not allowed` and a terminal
`Failed` record, and neither CMD is ever executed (no CMD-execution event
occurs, and no `CMD`-named record is ever dispatched to the executor). -/
theorem multiple_cmd_fatal {σ : Type} (cancel : Nat → Bool)
    (exec cmdExec : Instruction → σ → ExecOut σ) (fileName : String) (s0 : σ)
    (pre post : List Instruction) (c1i c2i : Instruction)
    (evs : List BEvent) (fin : LoopSt σ)
    (hc0 : cancel 0 = false) (hf : ¬ fileName = "")
    (hpre : procLoop cancel exec (pre ++ c2i :: post).length pre 0 s0 none [] =
      (evs, .done fin))
    (hpend : fin.pending = some c1i)
    (hcan : cancel (pre.length + 1) = false)
    (hc2 : c2i.Directive = "CMD") :
    processBuild false cancel fileName (.ok (pre ++ c2i :: post)) exec cmdExec s0 =
      .status .running :: evs ++
        [.log (countMsg (pre.length + 1) (pre ++ c2i :: post).length
            "multiple CMD directives are not allowed"),
         .status .failed] ∧
    (∀ i, BEvent.ranCMD i ∉
      processBuild false cancel fileName (.ok (pre ++ c2i :: post)) exec cmdExec s0) ∧
    (∀ i, BEvent.execd i ∈
      processBuild false cancel fileName (.ok (pre ++ c2i :: post)) exec cmdExec s0 →
      ¬ i.Directive = "CMD") ∧
    (∀ i, BEvent.dispatched i ∈
      processBuild false cancel fileName (.ok (pre ++ c2i :: post)) exec cmdExec s0 →
      ¬ i.Directive = "CMD") := by
  have hstep : procLoop cancel exec (pre ++ c2i :: post).length (c2i :: post)
      (0 + pre.length) fin.st fin.pending fin.concErrs =
      ([], .abort (countMsg (pre.length + 1) (pre ++ c2i :: post).length
        "multiple CMD directives are not allowed")) := by
    simp only [procLoop, Nat.zero_add, hcan, hc2, hpend]
    simp
  have hloop : procLoop cancel exec (pre ++ c2i :: post).length
      (pre ++ c2i :: post) 0 s0 none [] =
      (evs, .abort (countMsg (pre.length + 1) (pre ++ c2i :: post).length
        "multiple CMD directives are not allowed")) := by
    rw [procLoop_append_done hpre (c2i :: post), hstep]
    simp
  have hmain : processBuild false cancel fileName (.ok (pre ++ c2i :: post))
      exec cmdExec s0 =
      .status .running :: evs ++
        [.log (countMsg (pre.length + 1) (pre ++ c2i :: post).length
            "multiple CMD directives are not allowed"),
         .status .failed] := by
    unfold processBuild
    rw [if_neg (by simp)]
    rw [if_neg (by simp [hc0]), if_neg hf]
    simp only [hloop]
    rfl
  have hmemevs : ∀ ev, ev ∈ evs →
      (∃ m, ev = .log m) ∨ (∃ i, ev = .execd i ∧ ¬ i.Directive = "CMD") ∨
      (∃ i, ev = .dispatched i ∧ startsWithS i.Directive "*" = true) := by
    intro ev hm
    have hm2 : ev ∈
        (procLoop cancel exec (pre ++ c2i :: post).length pre 0 s0 none []).1 := by
      rw [hpre]
      exact hm
    exact procLoop_event_shape hm2
  refine ⟨hmain, ?_, ?_, ?_⟩
  · intro i
    rw [hmain]
    simp only [List.mem_cons, List.mem_append, or_assoc]
    rintro (h | h | h | h)
    · exact absurd h (by simp)
    · rcases hmemevs _ h with ⟨m, hh⟩ | ⟨j, hh, -⟩ | ⟨j, hh, -⟩ <;>
        exact absurd hh (by simp)
    · exact absurd h (by simp)
    · rcases h with h | h
      · exact absurd h (by simp)
      · exact absurd h (by simp)
  · intro i hmem
    rw [hmain] at hmem
    simp only [List.mem_cons, List.mem_append, or_assoc] at hmem
    rcases hmem with h | h | h | h
    · exact absurd h (by simp)
    · rcases hmemevs _ h with ⟨m, hh⟩ | ⟨j, hh, hj⟩ | ⟨j, hh, -⟩
      · exact absurd hh (by simp)
      · intro hcmd
        have : i = j := by simpa using hh
        exact hj (this ▸ hcmd)
      · exact absurd hh (by simp)
    · exact absurd h (by simp)
    · rcases h with h | h
      · exact absurd h (by simp)
      · exact absurd h (by simp)
  · intro i hmem
    rw [hmain] at hmem
    simp only [List.mem_cons, List.mem_append, or_assoc] at hmem
    rcases hmem with h | h | h | h
    · exact absurd h (by simp)
    · rcases hmemevs _ h with ⟨m, hh⟩ | ⟨j, hh, -⟩ | ⟨j, hh, hj⟩
      · exact absurd hh (by simp)
      · exact absurd hh (by simp)
      · have : i = j := by simpa using hh
        exact this ▸ star_not_CMD hj
    · exact absurd h (by simp)
    · rcases h with h | h
      · exact absurd h (by simp)
      · exact absurd h (by simp)

/-- Witness for C6 at the spec's scenario 5, the plan `CMD echo a` /
`CMD echo b`. -/
theorem multiple_cmd_fatal_witness :
    processBuild false (fun _ => false) "Jettyfile"
        (.ok [{ Directive := "CMD", Args := "echo a" },
              { Directive := "CMD", Args := "echo b" }])
        (fun _ (_ : Unit) => ⟨(), [], none⟩)
        (fun _ _ => ⟨(), [], none⟩) () =
      [.status .running,
       .log (countMsg 2 2 "multiple CMD directives are not allowed"),
       .status .failed] ∧
    ∀ i, BEvent.ranCMD i ∉
      processBuild false (fun _ => false) "Jettyfile"
        (.ok [{ Directive := "CMD", Args := "echo a" },
              { Directive := "CMD", Args := "echo b" }])
        (fun _ (_ : Unit) => ⟨(), [], none⟩)
        (fun _ _ => ⟨(), [], none⟩) () := by
  have h := multiple_cmd_fatal (σ := Unit) (fun _ => false)
    (fun _ _ => ⟨(), [], none⟩) (fun _ _ => ⟨(), [], none⟩) "Jettyfile" ()
    [{ Directive := "CMD", Args := "echo a" }] []
    { Directive := "CMD", Args := "echo a" } { Directive := "CMD", Args := "echo b" }
    [] ⟨(), some { Directive := "CMD", Args := "echo a" }, []⟩
    rfl (by decide) rfl rfl rfl rfl
  exact ⟨by simpa using h.1, by simpa using h.2.1⟩

/-- Claim C3 is false as stated: `echo a; echo b` is rejected by the command
validator (it contains a semicolon), yet a plan whose deferred CMD carries
exactly that string executes it anyway — the shell oracle receives the raw
string (visible as the `Done:` output below, where the oracle echoes the
command it was handed) — and the build terminates `Completed`, not `Failed`. -/
theorem cmd_validator_not_consulted :
    validateLinuxCommand ("echo a; echo b".data) ≠ none ∧
    processBuild false (fun _ => false) "Jettyfile"
        (.ok [{ Directive := "CMD", Args := "echo a; echo b" }])
        (fun _ (s : Unit) => ⟨s, [], none⟩)
        (fun i s => executeCMD (fun c _ s => (s, c, true)) i [] s) () =
      [.status .running, .ranCMD { Directive := "CMD", Args := "echo a; echo b" },
       .log "Done: echo a; echo b\n", .status .completed] := by
  refine ⟨by decide, ?_⟩
  rfl

/-- Claim C3 amended: the deferred CMD is executed by handing its raw `Args`
string to `sh -c` — with no variable expansion and no consultation of the
command validator — and the terminal status is `Completed` whenever that
shell run succeeds (the validator's verdict on the string plays no role);
CMD makes the build `Failed` only when the shell run itself fails. -/
theorem cmd_executes_raw_args {σ : Type} (cancel : Nat → Bool)
    (exec : Instruction → σ → ExecOut σ)
    (runShell : String → List (String × String) → σ → σ × String × Bool)
    (fileName : String) (s0 : σ) (insts : List Instruction)
    (evs : List BEvent) (fin : LoopSt σ) (ci : Instruction)
    (hc0 : cancel 0 = false) (hf : ¬ fileName = "")
    (hloop : procLoop cancel exec insts.length insts 0 s0 none [] = (evs, .done fin))
    (hpend : fin.pending = some ci) (hnoc : fin.concErrs = [])
    (hok : (runShell ci.Args [] fin.st).2.2 = true) :
    processBuild false cancel fileName (.ok insts) exec
        (fun i s => executeCMD runShell i [] s) s0 =
      .status .running :: evs ++
        [BEvent.ranCMD ci,
         .log ("Done: " ++ (runShell ci.Args [] fin.st).2.1 ++ "\n"),
         .status .completed] := by
  unfold processBuild
  rw [if_neg (by simp)]
  rw [if_neg (by simp [hc0]), if_neg hf]
  simp only [hloop]
  rw [if_neg (by simp [hnoc])]
  simp only [hpend]
  unfold executeCMD
  simp only [hok, if_pos rfl]
  simp

/-- Witness for the amended C3: a plan deferring `CMD echo a; echo b` — a
string the validator rejects — completes with the raw string executed. -/
theorem cmd_executes_raw_args_witness :
    processBuild false (fun _ => false) "Jettyfile"
        (.ok [{ Directive := "CMD", Args := "echo a; echo b" }])
        (fun _ (s : Unit) => ⟨s, [], none⟩)
        (fun i s => executeCMD (fun c _ s => (s, c, true)) i [] s) () =
      .status .running :: [] ++
        [BEvent.ranCMD { Directive := "CMD", Args := "echo a; echo b" },
         .log "Done: echo a; echo b\n", .status .completed] := by
  have h := cmd_executes_raw_args (σ := Unit) (fun _ => false)
    (fun _ s => ⟨s, [], none⟩) (fun c _ s => (s, c, true)) "Jettyfile" ()
    [{ Directive := "CMD", Args := "echo a; echo b" }] []
    ⟨(), some { Directive := "CMD", Args := "echo a; echo b" }, []⟩
    { Directive := "CMD", Args := "echo a; echo b" }
    rfl (by decide) rfl rfl rfl rfl
  simpa using h

end Jetty
